import Mathlib

/-!
Verification of the rejection-curve evaluation engine of the
disease-detection repository (`scripts/figures.py`, `scripts/rejection.py`).

Arrays of floating-point scores are embedded as `List ℚ` (exact arithmetic),
label arrays as `List ℕ`, boolean numpy masks as `List Bool`, and 2-D score
matrices as lists of rows.  A Python function that can return `None` is
embedded with an `Option` result.
-/

/-- Numpy boolean-mask indexing `xs[mask]`: the elements of `xs` at the
positions where `mask` is `true`, in order. -/
def maskSelect {α : Type} (xs : List α) (mask : List Bool) : List α :=
  ((xs.zip mask).filter (fun pr => pr.2)).map (fun pr => pr.1)

/-- `uncertainty.max()` (the repository only calls it on non-empty arrays;
`0` is a junk value for `[]`). -/
def npMax : List ℚ → ℚ
  | [] => 0
  | x :: xs => xs.foldl max x

/-- Ascending sort, as used by `np.percentile`. -/
def sortedOf (u : List ℚ) : List ℚ := u.insertionSort (· ≤ ·)

/-- The fractional index `q/100 * (n-1)` used by `np.percentile`'s default
linear interpolation. -/
def pPos (u : List ℚ) (q : ℚ) : ℚ := q * ((u.length : ℚ) - 1) / 100

/-- Lower interpolation index of `np.percentile`. -/
def pLo (u : List ℚ) (q : ℚ) : ℕ := (⌊pPos u q⌋).toNat

/-- Upper interpolation index of `np.percentile` (clipped to the last
position, as numpy clips its indices). -/
def pHi (u : List ℚ) (q : ℚ) : ℕ := min (pLo u q + 1) (u.length - 1)

/-- `np.percentile(u, q)` with the default linear interpolation:
`s[lo] + fract * (s[hi] - s[lo])` on the ascending sort `s` of `u`. -/
def percentile (u : List ℚ) (q : ℚ) : ℚ :=
  (sortedOf u).getD (pLo u q) 0
    + (pPos u q - ⌊pPos u q⌋) * ((sortedOf u).getD (pHi u q) 0 - (sortedOf u).getD (pLo u q) 0)

/-- `np.linspace(start, stop, num)`: `num` evenly spaced values, both
endpoints included. -/
def linspace (start stop : ℚ) (num : ℕ) : List ℚ :=
  (List.range num).map (fun (i : ℕ) => start + (i : ℚ) * ((stop - start) / ((num : ℚ) - 1)))

namespace figures

/-- `figures.binary_labels`: `labels_bin = zeros_like(labels)`;
`labels_bin[labels < min_positive_level] = 0`;
`labels_bin[labels >= min_positive_level] = 1`. -/
def binary_labels (labels : List ℕ) (min_positive_level : ℕ) : List ℕ :=
  let labels_bin := labels.map (fun _ => 0)
  let labels_bin := List.zipWith (fun l b => if l < min_positive_level then 0 else b)
    labels labels_bin
  List.zipWith (fun l b => if min_positive_level ≤ l then 1 else b) labels labels_bin

/-- `figures.binary_probs`: branches on `probs.shape[1]`; for 5 class columns
it returns the per-row sum `probs[:, min_positive_level:].sum(axis=1)`, for 2
columns the second column `np.squeeze(probs[:, 1:])`, and otherwise it prints
`Unknown number of classes ... Aborting.` and falls through, returning Python
`None` — embedded as `none`. -/
def binary_probs (probs : List (List ℚ)) (min_positive_level : ℕ) : Option (List ℚ) :=
  let n_classes := (probs.headD []).length
  if n_classes = 5 then
    some (probs.map (fun row => (row.drop min_positive_level).sum))
  else if n_classes = 2 then
    some (probs.map (fun row => row.getD 1 0))
  else
    none

/-- `figures.detection_task`: binarized labels and point/MC scores, the score
components being `None` when `binary_probs` falls through. -/
def detection_task (y : List ℕ) (probs probs_mc : List (List ℚ)) (disease_level : ℕ) :
    List ℕ × Option (List ℚ) × Option (List ℚ) :=
  (binary_labels y disease_level, binary_probs probs disease_level,
    binary_probs probs_mc disease_level)

/-- Per-row mean `row.mean()` of a Monte-Carlo draw row. -/
def rowMean (row : List ℚ) : ℚ := row.sum / row.length

/-- The square of `row.std()` (the population variance
`mean((x - mean)^2)`).  `np.std` is its square root, which is irrational in
general; the square determines nonnegativity and vanishing of the standard
deviation exactly. -/
def predictive_std_sq (row : List ℚ) : ℚ :=
  ((row.map (fun x => (x - rowMean row) ^ 2)).sum) / row.length

/-- `figures.posterior_statistics`: per-row predictive mean and (squared)
predictive standard deviation of the MC-draw matrix. -/
def posterior_statistics (probs_mc_bin : List (List ℚ)) : List ℚ × List ℚ :=
  (probs_mc_bin.map rowMean, probs_mc_bin.map predictive_std_sq)

/-- `figures.argmax_labels`: `(probs >= 0.5).astype(int)`. -/
def argmax_labels (probs : List ℚ) : List ℕ :=
  probs.map (fun p => if 1/2 ≤ p then 1 else 0)

/-- `figures.accuracy`: `(y_true == argmax_labels(probs)).sum() / len(y_true)`. -/
def accuracy (y_true : List ℕ) (probs : List ℚ) : ℚ :=
  ((y_true.zip (argmax_labels probs)).countP (fun pr => decide (pr.1 = pr.2)) : ℚ)
    / y_true.length

/-- `figures.sample_rejection(uncertainty, min_percentile, maximum=None)`:
threshold grid `linspace(percentile(u, min_percentile), maximum, 100)` with
`maximum` defaulting to `u.max()`; per grid value the acceptance mask
`uncertainty <= ut` and the retained fraction `accept.sum() / n_samples`. -/
def sample_rejection (uncertainty : List ℚ) (min_percentile : ℚ) (maximum : Option ℚ) :
    List ℚ × List ℚ × List (List Bool) :=
  let M := maximum.getD (npMax uncertainty)
  let uncertainty_tol := linspace (percentile uncertainty min_percentile) M 100
  let accept_indices := uncertainty_tol.map (fun ut => uncertainty.map (fun x => decide (x ≤ ut)))
  let frac_retain := accept_indices.map (fun accept => ((accept.count true : ℚ) / uncertainty.length))
  (uncertainty_tol, frac_retain, accept_indices)

/-- `figures.performance_over_uncertainty_tol`.  The only stateful
collaborators are made explicit arguments:
`rng i mask` models the draw `np.random.permutation(accept)` made at grid
point `i` by the (seeded) random generator, and `boot` — modelled from the
spec: `util.bootstrap` is not part of the source tree; per its contract
(§4.6) it is consumed as a function of the grid point's generator draw, the
resample count (`n_bootstrap` for the primary curve, `100` for the random
baseline) and the paired label/score arrays, returning the percentile
interval `(low, high)`.  Each curve point is the record
`(value, low, high)`. -/
def performance_over_uncertainty_tol
    (rng : ℕ → List Bool → List Bool)
    (boot : ℕ → ℕ → List ℚ → List ℚ → ℚ × ℚ)
    (uncertainty y probs : List ℚ)
    (measure : List ℚ → List ℚ → ℚ)
    (min_percentile : ℚ) (n_bootstrap : ℕ) :
    List ℚ × List ℚ × List (ℚ × ℚ × ℚ) × List (ℚ × ℚ × ℚ) :=
  let r := sample_rejection uncertainty min_percentile none
  let uncertainty_tol := r.1
  let frac_retain := r.2.1
  let accept_idx := r.2.2
  let p := (List.range accept_idx.length).map (fun i =>
    let accept := accept_idx.getD i []
    let lh := boot i n_bootstrap (maskSelect y accept) (maskSelect probs accept)
    (measure (maskSelect y accept) (maskSelect probs accept), lh.1, lh.2))
  let p_rand := (List.range accept_idx.length).map (fun i =>
    let accept := accept_idx.getD i []
    let rand_sel := rng i accept
    let lh := boot i 100 (maskSelect y rand_sel) (maskSelect probs rand_sel)
    (measure (maskSelect y rand_sel) (maskSelect probs rand_sel), lh.1, lh.2))
  (uncertainty_tol, frac_retain, p, p_rand)

end figures

/-- Threshold-grid projection of `figures.sample_rejection`. -/
def sr_grid (u : List ℚ) (mp : ℚ) (mx : Option ℚ) : List ℚ :=
  (figures.sample_rejection u mp mx).1

/-- Retained-fraction projection of `figures.sample_rejection`. -/
def sr_frac (u : List ℚ) (mp : ℚ) (mx : Option ℚ) : List ℚ :=
  (figures.sample_rejection u mp mx).2.1

/-- Acceptance-mask projection of `figures.sample_rejection`. -/
def sr_masks (u : List ℚ) (mp : ℚ) (mx : Option ℚ) : List (List Bool) :=
  (figures.sample_rejection u mp mx).2.2

lemma sr_grid_eq (u : List ℚ) (mp : ℚ) (mx : Option ℚ) :
    sr_grid u mp mx = linspace (percentile u mp) (mx.getD (npMax u)) 100 := rfl

lemma sr_masks_eq (u : List ℚ) (mp : ℚ) (mx : Option ℚ) :
    sr_masks u mp mx = (sr_grid u mp mx).map (fun ut => u.map (fun x => decide (x ≤ ut))) := rfl

lemma sr_frac_eq (u : List ℚ) (mp : ℚ) (mx : Option ℚ) :
    sr_frac u mp mx
      = (sr_masks u mp mx).map (fun accept => ((accept.count true : ℚ) / u.length)) := rfl

lemma length_linspace (a b : ℚ) (num : ℕ) : (linspace a b num).length = num := by
  rw [linspace, List.length_map, List.length_range]

lemma getD_linspace (a b : ℚ) (num i : ℕ) (h : i < num) :
    (linspace a b num).getD i 0 = a + (i : ℚ) * ((b - a) / ((num : ℚ) - 1)) := by
  rw [linspace, List.getD_eq_getElem _ _ (by rw [List.length_map, List.length_range]; exact h)]
  simp only [List.getElem_map, List.getElem_range]

lemma sr_grid_last (u : List ℚ) (mp : ℚ) (mx : Option ℚ) :
    (sr_grid u mp mx).getD 99 0 = mx.getD (npMax u) := by
  rw [sr_grid_eq, getD_linspace _ _ _ _ (by norm_num)]
  have h99 : ((100 : ℕ) : ℚ) - 1 = 99 := by norm_num
  rw [h99]
  field_simp

lemma length_sr_grid (u : List ℚ) (mp : ℚ) (mx : Option ℚ) :
    (sr_grid u mp mx).length = 100 := by
  rw [sr_grid_eq]; exact length_linspace _ _ _

lemma length_sr_masks (u : List ℚ) (mp : ℚ) (mx : Option ℚ) :
    (sr_masks u mp mx).length = 100 := by
  rw [sr_masks_eq]; simp [length_sr_grid]

lemma length_sr_frac (u : List ℚ) (mp : ℚ) (mx : Option ℚ) :
    (sr_frac u mp mx).length = 100 := by
  rw [sr_frac_eq]; simp [length_sr_masks]

lemma sr_masks_getD (u : List ℚ) (mp : ℚ) (mx : Option ℚ) (i : ℕ) (h : i < 100) :
    (sr_masks u mp mx).getD i []
      = u.map (fun x => decide (x ≤ (sr_grid u mp mx).getD i 0)) := by
  rw [sr_masks_eq,
    List.getD_eq_getElem _ _ (by simp [length_sr_grid]; omega),
    List.getD_eq_getElem _ _ (by simp [length_sr_grid]; omega)]
  simp

lemma sr_frac_getD (u : List ℚ) (mp : ℚ) (mx : Option ℚ) (i : ℕ) (h : i < 100) :
    (sr_frac u mp mx).getD i 0
      = (((sr_masks u mp mx).getD i []).count true : ℚ) / u.length := by
  rw [sr_frac_eq,
    List.getD_eq_getElem _ _ (by simp [length_sr_masks]; omega),
    List.getD_eq_getElem _ _ (by simp [length_sr_masks]; omega)]
  simp

/-- Claim C1: for a non-empty uncertainty vector, `sample_rejection` returns a
grid of exactly 100 evenly spaced thresholds from
`percentile(u, min_percentile)` to `maximum` (default `max(u)`), inclusive at
both ends; the `i`-th acceptance mask flags exactly the samples with
uncertainty `≤` the `i`-th grid value, and the `i`-th retained fraction is the
number of accepted samples divided by `len(u)`. -/
theorem c1_sample_rejection_grid_masks (u : List ℚ) (mp : ℚ) (mx : Option ℚ)
    (hu : u ≠ []) :
    (sr_grid u mp mx).length = 100 ∧
    (sr_masks u mp mx).length = 100 ∧
    (sr_frac u mp mx).length = 100 ∧
    (sr_grid u mp mx).getD 0 0 = percentile u mp ∧
    (sr_grid u mp mx).getD 99 0 = mx.getD (npMax u) ∧
    (∀ i, i + 1 < 100 →
      (sr_grid u mp mx).getD (i + 1) 0 - (sr_grid u mp mx).getD i 0
        = (mx.getD (npMax u) - percentile u mp) / 99) ∧
    (∀ i, i < 100 → ((sr_masks u mp mx).getD i []).length = u.length) ∧
    (∀ i s, i < 100 → s < u.length →
      (((sr_masks u mp mx).getD i []).getD s false = true
        ↔ u.getD s 0 ≤ (sr_grid u mp mx).getD i 0)) ∧
    (∀ i, i < 100 →
      (sr_frac u mp mx).getD i 0
        = (((sr_masks u mp mx).getD i []).count true : ℚ) / u.length) := by
  refine ⟨length_sr_grid u mp mx, length_sr_masks u mp mx, length_sr_frac u mp mx, ?_, ?_, ?_, ?_, ?_, ?_⟩
  · rw [sr_grid_eq, getD_linspace _ _ _ _ (by norm_num)]
    norm_num
  · exact sr_grid_last u mp mx
  · intro i hi
    rw [sr_grid_eq, getD_linspace _ _ _ _ hi, getD_linspace _ _ _ _ (by omega)]
    have h99 : ((100 : ℕ) : ℚ) - 1 = 99 := by norm_num
    rw [h99]
    push_cast
    ring
  · intro i hi
    rw [sr_masks_getD _ _ _ _ hi]
    simp
  · intro i s hi hs
    rw [sr_masks_getD _ _ _ _ hi,
      List.getD_eq_getElem _ _ (by simpa using hs),
      List.getD_eq_getElem _ _ hs]
    simp
  · intro i hi
    exact sr_frac_getD u mp mx i hi

/-- Witness for C1 at the concrete input `u = [1/2, 1/4]`, `mp = 10`,
default maximum. -/
theorem c1_witness :
    (sr_grid [1/2, 1/4] 10 none).length = 100 ∧
    (sr_grid [1/2, 1/4] 10 none).getD 99 0 = (none : Option ℚ).getD (npMax [1/2, 1/4]) := by
  have h := c1_sample_rejection_grid_masks [1/2, 1/4] 10 none (by decide)
  exact ⟨h.1, h.2.2.2.2.1⟩

lemma le_foldl_max (xs : List ℚ) : ∀ b : ℚ, b ≤ xs.foldl max b := by
  induction xs with
  | nil => intro b; exact le_refl b
  | cons c xs ih =>
    intro b
    calc b ≤ max b c := le_max_left b c
      _ ≤ (c :: xs).foldl max b := by simpa using ih (max b c)

lemma mem_le_foldl_max (xs : List ℚ) : ∀ (b x : ℚ), x ∈ xs → x ≤ xs.foldl max b := by
  induction xs with
  | nil => intro b x hx; cases hx
  | cons c xs ih =>
    intro b x hx
    rcases List.mem_cons.mp hx with h | h
    · subst h
      calc x ≤ max b x := le_max_right b x
        _ ≤ xs.foldl max (max b x) := le_foldl_max xs (max b x)
        _ = (x :: xs).foldl max b := by simp
    · simpa using ih (max b c) x h

lemma mem_le_npMax (u : List ℚ) (x : ℚ) (hx : x ∈ u) : x ≤ npMax u := by
  cases u with
  | nil => cases hx
  | cons a xs =>
    rcases List.mem_cons.mp hx with h | h
    · subst h; exact le_foldl_max xs x
    · exact mem_le_foldl_max xs a x h

lemma sortedOf_perm (u : List ℚ) : List.Perm (sortedOf u) u :=
  List.perm_insertionSort _ u

lemma length_sortedOf (u : List ℚ) : (sortedOf u).length = u.length :=
  (sortedOf_perm u).length_eq

lemma sortedOf_getD_mem (u : List ℚ) (i : ℕ) (h : i < u.length) :
    (sortedOf u).getD i 0 ∈ u := by
  rw [List.getD_eq_getElem _ _ (by rw [length_sortedOf]; exact h)]
  exact (sortedOf_perm u).mem_iff.mp (List.getElem_mem _)

lemma pPos_nonneg (u : List ℚ) (q : ℚ) (hu : u ≠ []) (h0 : 0 ≤ q) : 0 ≤ pPos u q := by
  have h1 : (1 : ℕ) ≤ u.length := List.length_pos.mpr hu
  have h1q : (1 : ℚ) ≤ (u.length : ℚ) := by exact_mod_cast h1
  have : (0 : ℚ) ≤ (u.length : ℚ) - 1 := by linarith
  have := mul_nonneg h0 this
  rw [pPos]
  positivity

lemma pPos_le (u : List ℚ) (q : ℚ) (h1 : q ≤ 100) (h0 : 0 ≤ q) (hu : u ≠ []) :
    pPos u q ≤ (u.length : ℚ) - 1 := by
  have hl : (1 : ℕ) ≤ u.length := List.length_pos.mpr hu
  have h1q : (1 : ℚ) ≤ (u.length : ℚ) := by exact_mod_cast hl
  have hn : (0 : ℚ) ≤ (u.length : ℚ) - 1 := by linarith
  rw [pPos, div_le_iff₀ (by norm_num : (0:ℚ) < 100)]
  nlinarith

lemma pLo_lt_length (u : List ℚ) (q : ℚ) (hu : u ≠ []) (h0 : 0 ≤ q) (h1 : q ≤ 100) :
    pLo u q < u.length := by
  have hl : (1 : ℕ) ≤ u.length := List.length_pos.mpr hu
  have hle : pPos u q ≤ (u.length : ℚ) - 1 := pPos_le u q h1 h0 hu
  have hfl : ⌊pPos u q⌋ ≤ (u.length : ℤ) - 1 := by
    have : ((u.length : ℤ) - 1 : ℤ) = ⌊((u.length : ℚ) - 1)⌋ := by
      rw [show ((u.length : ℚ) - 1) = (((u.length : ℤ) - 1 : ℤ) : ℚ) by push_cast; ring]
      rw [Int.floor_intCast]
    rw [this]
    exact Int.floor_le_floor hle
  have : pLo u q ≤ u.length - 1 := by
    rw [pLo]
    rw [Int.toNat_le]
    omega
  omega

lemma pHi_lt_length (u : List ℚ) (hu : u ≠ []) (q : ℚ) : pHi u q < u.length := by
  have hl : (1 : ℕ) ≤ u.length := List.length_pos.mpr hu
  rw [pHi]
  omega

lemma percentile_le_npMax (u : List ℚ) (q : ℚ) (hu : u ≠ []) (h0 : 0 ≤ q) (h1 : q ≤ 100) :
    percentile u q ≤ npMax u := by
  have hA : (sortedOf u).getD (pLo u q) 0 ≤ npMax u :=
    mem_le_npMax u _ (sortedOf_getD_mem u _ (pLo_lt_length u q hu h0 h1))
  have hB : (sortedOf u).getD (pHi u q) 0 ≤ npMax u :=
    mem_le_npMax u _ (sortedOf_getD_mem u _ (pHi_lt_length u hu q))
  have hf0 : (0 : ℚ) ≤ pPos u q - ⌊pPos u q⌋ := by
    have := Int.floor_le (pPos u q)
    linarith
  have hf1 : pPos u q - ⌊pPos u q⌋ ≤ 1 := by
    have := Int.lt_floor_add_one (pPos u q)
    linarith
  set A := (sortedOf u).getD (pLo u q) 0 with hAdef
  set B := (sortedOf u).getD (pHi u q) 0 with hBdef
  set f := pPos u q - (⌊pPos u q⌋ : ℚ) with hfdef
  have h2 : f * (B - A) ≤ f * (npMax u - A) :=
    mul_le_mul_of_nonneg_left (by linarith) hf0
  have h3 : f * (npMax u - A) ≤ 1 * (npMax u - A) :=
    mul_le_mul_of_nonneg_right hf1 (by linarith)
  rw [percentile]
  rw [← hAdef, ← hBdef, ← hfdef]
  linarith

lemma sr_grid_mono (u : List ℚ) (mp : ℚ) (mx : Option ℚ)
    (hab : percentile u mp ≤ mx.getD (npMax u)) (i j : ℕ) (hij : i ≤ j) (hj : j < 100) :
    (sr_grid u mp mx).getD i 0 ≤ (sr_grid u mp mx).getD j 0 := by
  rw [sr_grid_eq, getD_linspace _ _ _ _ (by omega), getD_linspace _ _ _ _ hj]
  have hstep : (0 : ℚ) ≤ (mx.getD (npMax u) - percentile u mp) / (((100:ℕ) : ℚ) - 1) := by
    apply div_nonneg (by linarith) (by norm_num)
  have hcast : (i : ℚ) ≤ (j : ℚ) := by exact_mod_cast hij
  have := mul_le_mul_of_nonneg_right hcast hstep
  linarith

lemma count_true_map_all (u : List ℚ) (t : ℚ) (h : ∀ x ∈ u, x ≤ t) :
    (u.map (fun x => decide (x ≤ t))).count true = u.length := by
  induction u with
  | nil => simp
  | cons a xs ih =>
    have ha : a ≤ t := h a (List.mem_cons_self a xs)
    have hxs : ∀ x ∈ xs, x ≤ t := fun x hx => h x (List.mem_cons_of_mem a hx)
    simp [ha, List.count_cons, ih hxs]

lemma count_true_map_le (u : List ℚ) (t1 t2 : ℚ) (h : t1 ≤ t2) :
    (u.map (fun x => decide (x ≤ t1))).count true
      ≤ (u.map (fun x => decide (x ≤ t2))).count true := by
  induction u with
  | nil => simp
  | cons x xs ih =>
    by_cases hx1 : x ≤ t1
    · have hx2 : x ≤ t2 := le_trans hx1 h
      simp [hx1, hx2, List.count_cons]
      omega
    · by_cases hx2 : x ≤ t2 <;> simp [hx1, hx2, List.count_cons] <;> omega

/-- Claim C2: the acceptance masks of `sample_rejection(u, p)` grow
monotonically (each mask is a superset of all masks at smaller indices), the
retained-fraction sequence is non-decreasing, and with the default
`maximum = max(u)` its last entry is `1`. -/
theorem c2_sample_rejection_monotone (u : List ℚ) (mp : ℚ)
    (hu : u ≠ []) (h0 : 0 ≤ mp) (h100 : mp ≤ 100) :
    (∀ i j s, i ≤ j → j < 100 →
      ((sr_masks u mp none).getD i []).getD s false = true →
      ((sr_masks u mp none).getD j []).getD s false = true) ∧
    (∀ i j, i ≤ j → j < 100 →
      (sr_frac u mp none).getD i 0 ≤ (sr_frac u mp none).getD j 0) ∧
    (sr_frac u mp none).getD 99 0 = 1 := by
  have hab : percentile u mp ≤ (none : Option ℚ).getD (npMax u) := by
    simpa using percentile_le_npMax u mp hu h0 h100
  refine ⟨?_, ?_, ?_⟩
  · intro i j s hij hj hacc
    have hi : i < 100 := lt_of_le_of_lt hij hj
    rw [sr_masks_getD _ _ _ _ hi] at hacc
    rw [sr_masks_getD _ _ _ _ hj]
    by_cases hs : s < u.length
    · rw [List.getD_eq_getElem _ _ (by simpa using hs)] at hacc ⊢
      simp only [List.getElem_map, decide_eq_true_eq] at hacc ⊢
      exact le_trans hacc (sr_grid_mono u mp none hab i j hij hj)
    · rw [List.getD_eq_default _ _ (by simpa using Nat.le_of_not_lt hs)] at hacc
      cases hacc
  · intro i j hij hj
    have hi : i < 100 := lt_of_le_of_lt hij hj
    rw [sr_frac_getD _ _ _ _ hi, sr_frac_getD _ _ _ _ hj,
      sr_masks_getD _ _ _ _ hi, sr_masks_getD _ _ _ _ hj]
    have hlen : (0 : ℚ) < (u.length : ℚ) := by
      exact_mod_cast List.length_pos.mpr hu
    have hcnt := count_true_map_le u _ _ (sr_grid_mono u mp none hab i j hij hj)
    have hcnt' : ((u.map (fun x => decide (x ≤ (sr_grid u mp none).getD i 0))).count true : ℚ)
        ≤ ((u.map (fun x => decide (x ≤ (sr_grid u mp none).getD j 0))).count true : ℚ) := by
      exact_mod_cast hcnt
    exact div_le_div_of_nonneg_right hcnt' (le_of_lt hlen)
  · rw [sr_frac_getD _ _ _ _ (by norm_num), sr_masks_getD _ _ _ _ (by norm_num)]
    have hgrid99 : (sr_grid u mp none).getD 99 0 = npMax u := by
      simpa using sr_grid_last u mp none
    rw [hgrid99]
    have hall : ∀ x ∈ u, x ≤ npMax u := fun x hx => mem_le_npMax u x hx
    rw [count_true_map_all u (npMax u) hall]
    have hlen : ((u.length : ℚ)) ≠ 0 := by
      have : (0 : ℚ) < (u.length : ℚ) := by exact_mod_cast List.length_pos.mpr hu
      linarith
    exact div_self hlen

/-- Witness for C2 at `u = [1/2, 1/4]`, `mp = 10`: the retained fraction ends
at `1`. -/
theorem c2_witness : (sr_frac [1/2, 1/4] 10 none).getD 99 0 = 1 :=
  (c2_sample_rejection_monotone [1/2, 1/4] 10 (by decide) (by norm_num) (by norm_num)).2.2

lemma sum_eq_of_all_eq (row : List ℚ) (c : ℚ) (h : ∀ x ∈ row, x = c) :
    row.sum = c * row.length := by
  induction row with
  | nil => simp
  | cons a xs ih =>
    have ha : a = c := h a (List.mem_cons_self a xs)
    have hxs : ∀ x ∈ xs, x = c := fun x hx => h x (List.mem_cons_of_mem a hx)
    rw [List.sum_cons, ih hxs, ha, List.length_cons]
    push_cast
    ring

lemma rowMean_const (row : List ℚ) (c : ℚ) (hne : row ≠ []) (h : ∀ x ∈ row, x = c) :
    figures.rowMean row = c := by
  have hlen : ((row.length : ℚ)) ≠ 0 := by
    have : (0 : ℚ) < (row.length : ℚ) := by exact_mod_cast List.length_pos.mpr hne
    linarith
  rw [figures.rowMean, sum_eq_of_all_eq row c h, mul_div_assoc, div_self hlen, mul_one]

lemma predictive_std_sq_nonneg (row : List ℚ) : 0 ≤ figures.predictive_std_sq row := by
  rw [figures.predictive_std_sq]
  apply div_nonneg _ (by positivity)
  apply List.sum_nonneg
  intro x hx
  rcases List.mem_map.mp hx with ⟨a, _, rfl⟩
  positivity

lemma predictive_std_sq_const (row : List ℚ) (c : ℚ) (hne : row ≠ []) (h : ∀ x ∈ row, x = c) :
    figures.predictive_std_sq row = 0 := by
  rw [figures.predictive_std_sq]
  have hsum : (row.map (fun x => (x - figures.rowMean row) ^ 2)).sum = 0 := by
    have hmean := rowMean_const row c hne h
    have : ∀ y ∈ row.map (fun x => (x - figures.rowMean row) ^ 2), y = 0 := by
      intro y hy
      rcases List.mem_map.mp hy with ⟨a, ha, rfl⟩
      rw [h a ha, hmean]
      ring
    rw [sum_eq_of_all_eq _ 0 this, zero_mul]
  rw [hsum, zero_div]

/-- Claim C6: `posterior_statistics` on an `n × m` MC-score matrix returns two
vectors of length `n`, the per-row mean and per-row standard deviation (the
latter embedded through its square, `predictive_std_sq`, since
`std = √predictive_std_sq`); the standard deviation is non-negative on every
row (its square is), and on a constant row with value `c` the standard
deviation is exactly `0` (its square is `0`) and the mean is exactly `c`. -/
theorem c6_posterior_statistics (mc : List (List ℚ)) (m : ℕ) (hm : 0 < m)
    (hrect : ∀ r ∈ mc, r.length = m) :
    (figures.posterior_statistics mc).1.length = mc.length ∧
    (figures.posterior_statistics mc).2.length = mc.length ∧
    (∀ i, i < mc.length → 0 ≤ (figures.posterior_statistics mc).2.getD i 0) ∧
    (∀ i, i < mc.length → (figures.posterior_statistics mc).1.getD i 0
        = figures.rowMean (mc.getD i [])) ∧
    (∀ i, i < mc.length → ∀ c : ℚ, (∀ x ∈ mc.getD i [], x = c) →
      (figures.posterior_statistics mc).1.getD i 0 = c ∧
      (figures.posterior_statistics mc).2.getD i 0 = 0) := by
  have hfst : ∀ i, i < mc.length →
      (figures.posterior_statistics mc).1.getD i 0 = figures.rowMean (mc.getD i []) := by
    intro i hi
    rw [figures.posterior_statistics]
    rw [List.getD_eq_getElem _ _ (by simpa using hi), List.getD_eq_getElem _ _ hi]
    simp
  have hsnd : ∀ i, i < mc.length →
      (figures.posterior_statistics mc).2.getD i 0
        = figures.predictive_std_sq (mc.getD i []) := by
    intro i hi
    rw [figures.posterior_statistics]
    rw [List.getD_eq_getElem _ _ (by simpa using hi), List.getD_eq_getElem _ _ hi]
    simp
  refine ⟨by simp [figures.posterior_statistics], by simp [figures.posterior_statistics],
    ?_, hfst, ?_⟩
  · intro i hi
    rw [hsnd i hi]
    exact predictive_std_sq_nonneg _
  · intro i hi c hc
    have hmem : mc.getD i [] ∈ mc := by
      rw [List.getD_eq_getElem _ _ hi]
      exact List.getElem_mem _
    have hne : mc.getD i [] ≠ [] := by
      intro hnil
      have := hrect _ hmem
      rw [hnil] at this
      simp at this
      omega
    exact ⟨by rw [hfst i hi]; exact rowMean_const _ c hne hc,
      by rw [hsnd i hi]; exact predictive_std_sq_const _ c hne hc⟩

/-- Witness for C6 at the 1 × 2 constant matrix `[[1/3, 1/3]]`. -/
theorem c6_witness :
    (figures.posterior_statistics [[1/3, 1/3]]).1.getD 0 0 = 1/3 ∧
    (figures.posterior_statistics [[1/3, 1/3]]).2.getD 0 0 = 0 :=
  (c6_posterior_statistics [[1/3, 1/3]] 2 (by norm_num)
      (by intro r hr; simp only [List.mem_singleton] at hr; rw [hr]; rfl)).2.2.2.2
    0 (by norm_num) (1/3) (by intro x hx; simp at hx; rw [hx]; norm_num)

/-- Claim C10 (implicit): the prediction rule used by `accuracy` maps a score
to the positive class exactly when the score is `≥ 1/2`; in particular a score
of exactly `1/2` is predicted positive, so a sample scored `1/2` counts as
correct in `accuracy` if and only if its label is `1`. -/
theorem c10_half_score_predicted_positive (q : ℚ) :
    ((figures.argmax_labels [q]).getD 0 0 = 1 ↔ 1/2 ≤ q) ∧
    figures.argmax_labels [(1 : ℚ)/2] = [1] ∧
    (∀ yv : ℕ, figures.accuracy [yv] [(1 : ℚ)/2] = 1 ↔ yv = 1) := by
  refine ⟨?_, ?_, ?_⟩
  · by_cases hq : 1/2 ≤ q <;> simp [figures.argmax_labels, hq]
  · simp [figures.argmax_labels]
  · intro yv
    have hval : figures.accuracy [yv] [(1 : ℚ)/2] = if yv = 1 then 1 else 0 := by
      by_cases hy : yv = 1 <;>
        simp [figures.accuracy, figures.argmax_labels, List.countP_cons, hy]
    rw [hval]
    by_cases hy : yv = 1 <;> simp [hy]

/- Embeddings from `scripts/rejection.py`. -/
namespace rejection

/-- `rejection.binary_probs`: `probs[:, min_positive_level:].sum(axis=1)`,
with no shape check. -/
def binary_probs (probs : List (List ℚ)) (min_positive_level : ℕ) : List ℚ :=
  probs.map (fun row => (row.drop min_positive_level).sum)

/-- `np.where(y == k)[0]`: the ascending indices of `y` holding value `k`. -/
def indicesOf (y : List ℕ) (k : ℕ) : List ℕ :=
  (List.range y.length).filter (fun i => decide (y.getD i 0 = k))

/-- `mask[select] = True` for an index array `select`. -/
def setTrues (mask : List Bool) (idxs : List ℕ) : List Bool :=
  idxs.foldl (fun m i => m.set i true) mask

/-- `rejection.stratified_mask(y, y_prior)` (default `shuffle=False`): for
every class `k` of `np.unique(y_prior)` with quota `n = (y_prior == k).sum()`,
set the mask at the first `n` indices of `np.where(y == k)[0]`.  The class
iteration order is immaterial because classes touch disjoint index sets. -/
def stratified_mask (y y_prior : List ℕ) : List Bool :=
  let classes := y_prior.dedup
  classes.foldl
    (fun mask k => setTrues mask ((indicesOf y k).take (y_prior.count k)))
    (List.replicate y.length false)

end rejection

/-- Claim C4: `figures.binary_probs` on a score matrix whose column count is
neither 2 nor 5 does not raise an `InvalidShape` error: it prints a message
and returns Python `None` (embedded `none`), i.e. it silently degrades; and
for a 3-column matrix it does not return the per-row sum of the columns at
index `≥ threshold_level` either (the unchecked `rejection.binary_probs`
would return `[4/5]` here). -/
theorem c4_three_column_returns_none :
    figures.binary_probs [[1/5, 3/10, 1/2]] 1 = none ∧
    rejection.binary_probs [[1/5, 3/10, 1/2]] 1 = [4/5] := by
  constructor
  · rfl
  · show [((3:ℚ)/10 + (1/2 + 0))] = [4/5]
    norm_num

lemma binary_labels_cons (a : ℕ) (xs : List ℕ) (t : ℕ) :
    figures.binary_labels (a :: xs) t
      = (if t ≤ a then 1 else (if a < t then 0 else 0)) :: figures.binary_labels xs t := rfl

lemma binary_labels_eq (labels : List ℕ) (t : ℕ) :
    figures.binary_labels labels t = labels.map (fun l => if t ≤ l then 1 else 0) := by
  induction labels with
  | nil => rfl
  | cons a xs ih =>
    rw [binary_labels_cons, ih, List.map_cons]
    congr 1
    by_cases h : t ≤ a
    · simp [h]
    · simp [h]

lemma headD_length_of_rect (P : List (List ℚ)) (n : ℕ) (hne : P ≠ [])
    (hrect : ∀ r ∈ P, r.length = n) : (P.headD []).length = n := by
  cases P with
  | nil => exact absurd rfl hne
  | cons r rest => exact hrect r (List.mem_cons_self r rest)

/-- Claim C5: `detection_task` binarizes an ordinal level array to `1` exactly
where `level ≥ threshold_level` (e.g. `[0,1,2,3,4]` with threshold `2` gives
`[0,0,1,1,1]`), binarizes a 5-column probability matrix to the per-row sum of
the columns at index `≥ threshold_level`, and a 2-column matrix to its second
column, with all outputs index-aligned with the inputs. -/
theorem c5_detection_task_binarization (t : ℕ) (ht : 1 ≤ t) (y : List ℕ)
    (P5 P2 : List (List ℚ))
    (h5 : ∀ r ∈ P5, r.length = 5) (h5ne : P5 ≠ [])
    (h2 : ∀ r ∈ P2, r.length = 2) (h2ne : P2 ≠ []) :
    (figures.binary_labels y t).length = y.length ∧
    (∀ i, i < y.length →
      (figures.binary_labels y t).getD i 0 = if t ≤ y.getD i 0 then 1 else 0) ∧
    figures.binary_labels [0, 1, 2, 3, 4] 2 = [0, 0, 1, 1, 1] ∧
    figures.binary_probs P5 t = some (P5.map (fun r => (r.drop t).sum)) ∧
    figures.binary_probs P2 t = some (P2.map (fun r => r.getD 1 0)) ∧
    (P5.map (fun r => (r.drop t).sum)).length = P5.length ∧
    (P2.map (fun r => r.getD 1 0)).length = P2.length ∧
    figures.detection_task y P5 P2 t
      = (figures.binary_labels y t, figures.binary_probs P5 t, figures.binary_probs P2 t) := by
  have hhead5 : ((P5.headD []).length = 5) := headD_length_of_rect P5 5 h5ne h5
  have hhead2 : ((P2.headD []).length = 2) := headD_length_of_rect P2 2 h2ne h2
  refine ⟨?_, ?_, by decide, ?_, ?_, List.length_map _ _, List.length_map _ _, rfl⟩
  · rw [binary_labels_eq]; exact List.length_map _ _
  · intro i hi
    rw [binary_labels_eq,
      List.getD_eq_getElem _ _ (by simpa using hi), List.getD_eq_getElem _ _ hi]
    simp
  · simp only [figures.binary_probs]
    rw [hhead5]
    norm_num
  · simp only [figures.binary_probs]
    rw [hhead2]
    norm_num

/-- Witness for C5 at `t = 2`, `y = [0,1,2,3,4]`,
`P5 = [[1/5,1/5,1/5,1/5,1/5]]`, `P2 = [[1/3,2/3]]`. -/
theorem c5_witness :
    figures.binary_labels [0, 1, 2, 3, 4] 2 = [0, 0, 1, 1, 1] ∧
    figures.binary_probs [[1/5, 1/5, 1/5, 1/5, 1/5]] 2
      = some ([[(1:ℚ)/5, 1/5, 1/5, 1/5, 1/5]].map (fun r => (r.drop 2).sum)) ∧
    figures.binary_probs [[1/3, 2/3]] 2
      = some ([[(1:ℚ)/3, 2/3]].map (fun r => r.getD 1 0)) := by
  have h := c5_detection_task_binarization 2 (by norm_num) [0, 1, 2, 3, 4]
    [[1/5, 1/5, 1/5, 1/5, 1/5]] [[1/3, 2/3]]
    (by intro r hr; simp only [List.mem_singleton] at hr; rw [hr]; rfl) (by simp)
    (by intro r hr; simp only [List.mem_singleton] at hr; rw [hr]; rfl) (by simp)
  exact ⟨h.2.2.1, h.2.2.2.1, h.2.2.2.2.1⟩

/-- The selected indices of class `k`: the first `count k` indices of
`np.where(y == k)[0]`. -/
def selIdx (y p : List ℕ) (k : ℕ) : List ℕ :=
  (rejection.indicesOf y k).take (p.count k)

/-- All indices selected by `rejection.stratified_mask`, class by class. -/
def allSel (y p : List ℕ) : List ℕ := p.dedup.flatMap (selIdx y p)

lemma setTrues_length (idxs : List ℕ) : ∀ m : List Bool,
    (rejection.setTrues m idxs).length = m.length := by
  induction idxs with
  | nil => intro m; rfl
  | cons i is ih =>
    intro m
    have hstep : rejection.setTrues m (i :: is) = rejection.setTrues (m.set i true) is := rfl
    rw [hstep, ih, List.length_set]

lemma getD_set_true (m : List Bool) (i j : ℕ) :
    (m.set i true).getD j false
      = (m.getD j false || (decide (j = i) && decide (j < m.length))) := by
  by_cases hj : j < m.length
  · rw [List.getD_eq_getElem _ _ (by simpa using hj), List.getD_eq_getElem _ _ hj,
      List.getElem_set]
    by_cases hij : i = j
    · simp [hij, hj]
    · have : ¬(j = i) := fun h => hij h.symm
      simp [hij, this, hj]
  · rw [List.getD_eq_default _ _ (by simpa using Nat.le_of_not_lt hj),
      List.getD_eq_default _ _ (Nat.le_of_not_lt hj)]
    simp [hj]

lemma getD_setTrues_iff (idxs : List ℕ) : ∀ (m : List Bool) (j : ℕ),
    ((rejection.setTrues m idxs).getD j false = true)
      ↔ (m.getD j false = true ∨ (j ∈ idxs ∧ j < m.length)) := by
  induction idxs with
  | nil => intro m j; simp [rejection.setTrues]
  | cons i is ih =>
    intro m j
    have hstep : rejection.setTrues m (i :: is) = rejection.setTrues (m.set i true) is := rfl
    rw [hstep, ih (m.set i true) j, List.length_set, getD_set_true]
    simp only [Bool.or_eq_true, Bool.and_eq_true, decide_eq_true_eq, List.mem_cons]
    tauto

lemma getD_replicate_false (n j : ℕ) : (List.replicate n false).getD j false = false := by
  by_cases hj : j < n
  · rw [List.getD_eq_getElem _ _ (by simpa using hj)]
    simp
  · exact List.getD_eq_default _ _ (by simpa using Nat.le_of_not_lt hj)

lemma mem_indicesOf (y : List ℕ) (k j : ℕ) :
    j ∈ rejection.indicesOf y k ↔ j < y.length ∧ y.getD j 0 = k := by
  simp [rejection.indicesOf, List.mem_filter, List.mem_range]

lemma mem_selIdx (y p : List ℕ) (k j : ℕ) (h : j ∈ selIdx y p k) :
    j < y.length ∧ y.getD j 0 = k :=
  (mem_indicesOf y k j).mp (List.mem_of_mem_take h)

lemma foldl_setTrues_length (cs : List ℕ) (f : ℕ → List ℕ) : ∀ m : List Bool,
    (cs.foldl (fun mask k => rejection.setTrues mask (f k)) m).length = m.length := by
  induction cs with
  | nil => intro m; rfl
  | cons c cs ih =>
    intro m
    rw [List.foldl_cons, ih, setTrues_length]

lemma stratified_mask_length (y p : List ℕ) :
    (rejection.stratified_mask y p).length = y.length := by
  simp only [rejection.stratified_mask]
  rw [foldl_setTrues_length, List.length_replicate]

lemma getD_foldl_setTrues (y p : List ℕ) (cs : List ℕ) :
    ∀ m : List Bool, m.length = y.length → ∀ j : ℕ,
    (((cs.foldl (fun mask k => rejection.setTrues mask (selIdx y p k)) m).getD j false) = true)
      ↔ (m.getD j false = true ∨ ∃ k ∈ cs, j ∈ selIdx y p k) := by
  induction cs with
  | nil => intro m hm j; simp
  | cons c cs ih =>
    intro m hm j
    rw [List.foldl_cons,
      ih (rejection.setTrues m (selIdx y p c)) (by rw [setTrues_length]; exact hm) j,
      getD_setTrues_iff]
    have hiff : (j ∈ selIdx y p c ∧ j < m.length) ↔ j ∈ selIdx y p c :=
      ⟨fun h => h.1, fun h => ⟨h, by rw [hm]; exact (mem_selIdx y p c j h).1⟩⟩
    rw [hiff]
    simp only [List.mem_cons, exists_eq_or_imp]
    tauto

lemma getD_stratified_iff (y p : List ℕ) (j : ℕ) :
    ((rejection.stratified_mask y p).getD j false = true) ↔ j ∈ allSel y p := by
  simp only [rejection.stratified_mask]
  rw [show p.dedup.foldl
        (fun mask k => rejection.setTrues mask ((rejection.indicesOf y k).take (p.count k)))
        (List.replicate y.length false)
      = p.dedup.foldl (fun mask k => rejection.setTrues mask (selIdx y p k))
        (List.replicate y.length false) from rfl]
  rw [getD_foldl_setTrues y p p.dedup (List.replicate y.length false)
    (List.length_replicate _ _) j]
  rw [getD_replicate_false]
  simp [allSel, List.mem_flatMap]

lemma getD_stratified_eq_decide (y p : List ℕ) (j : ℕ) :
    (rejection.stratified_mask y p).getD j false = decide (j ∈ allSel y p) := by
  have hiff := getD_stratified_iff y p j
  by_cases h : j ∈ allSel y p
  · rw [hiff.mpr h]
    simp [h]
  · cases hb : (rejection.stratified_mask y p).getD j false
    · simp [h]
    · exact absurd (hiff.mp hb) h

lemma countP_eq_length_filter_range {α : Type} (xs : List α) (q : α → Bool) (d : α) :
    xs.countP q = ((List.range xs.length).filter (fun j => q (xs.getD j d))).length := by
  induction xs with
  | nil => simp
  | cons a xs ih =>
    have hcomp : List.filter ((fun j => q ((a :: xs).getD j d)) ∘ Nat.succ)
          (List.range xs.length)
        = List.filter (fun j => q (xs.getD j d)) (List.range xs.length) :=
      List.filter_congr (fun j _ => rfl)
    have h1 : (List.range (a :: xs).length).filter (fun j => q ((a :: xs).getD j d))
        = (if q a then [0] else []) ++
          ((List.range xs.length).filter (fun j => q (xs.getD j d))).map Nat.succ := by
      rw [List.length_cons, List.range_succ_eq_map, List.filter_cons, List.filter_map, hcomp]
      by_cases hq : q a <;> simp [hq, List.getD_cons_zero]
    rw [h1, List.countP_cons, List.length_append, List.length_map, ← ih]
    by_cases hq : q a <;> simp [hq] <;> omega

lemma count_true_eq_length_filter_range (m : List Bool) :
    m.count true = ((List.range m.length).filter (fun j => m.getD j false)).length := by
  have h := countP_eq_length_filter_range m (fun b => b == true) false
  have hc : m.count true = m.countP (fun b => b == true) := rfl
  rw [hc, h]
  congr 1
  apply List.filter_congr
  intro j hj
  cases m.getD j false <;> rfl

lemma count_eq_countP_decide (y : List ℕ) (k : ℕ) :
    y.count k = y.countP (fun x => decide (x = k)) := by
  induction y with
  | nil => rfl
  | cons a ys ih =>
    by_cases h : a = k <;> simp [List.count_cons, List.countP_cons, h, ih]

lemma length_indicesOf (y : List ℕ) (k : ℕ) :
    (rejection.indicesOf y k).length = y.count k := by
  have h := countP_eq_length_filter_range y (fun x => decide (x = k)) 0
  rw [count_eq_countP_decide y k, h]
  rfl

lemma length_selIdx (y p : List ℕ) (k : ℕ) (hsuff : p.count k ≤ y.count k) :
    (selIdx y p k).length = p.count k := by
  rw [selIdx, List.length_take, length_indicesOf]
  exact Nat.min_eq_left hsuff

lemma nodup_indicesOf (y : List ℕ) (k : ℕ) : (rejection.indicesOf y k).Nodup :=
  (List.nodup_range _).filter _

lemma nodup_selIdx (y p : List ℕ) (k : ℕ) : (selIdx y p k).Nodup :=
  (nodup_indicesOf y k).sublist (List.take_sublist _ _)

lemma nodup_allSel (y p : List ℕ) : (allSel y p).Nodup := by
  rw [allSel, List.nodup_flatMap]
  refine ⟨fun k _ => nodup_selIdx y p k, ?_⟩
  apply List.Pairwise.imp ?_ (List.nodup_dedup p)
  intro a b hab j hja hjb
  exact hab (((mem_selIdx y p a j hja).2).symm.trans ((mem_selIdx y p b j hjb).2))

lemma mem_allSel_lt (y p : List ℕ) (j : ℕ) (h : j ∈ allSel y p) : j < y.length := by
  rw [allSel, List.mem_flatMap] at h
  rcases h with ⟨k, _, hks⟩
  exact (mem_selIdx y p k j hks).1

lemma filter_range_mem_length (s : List ℕ) (n : ℕ) (h1 : s.Nodup) (h2 : ∀ j ∈ s, j < n) :
    ((List.range n).filter (fun j => decide (j ∈ s))).length = s.length := by
  have hnd : ((List.range n).filter (fun j => decide (j ∈ s))).Nodup :=
    (List.nodup_range n).filter _
  have hperm : List.Perm ((List.range n).filter (fun j => decide (j ∈ s))) s := by
    rw [List.perm_iff_count]
    intro a
    by_cases ha : a ∈ s
    · have hmem : a ∈ (List.range n).filter (fun j => decide (j ∈ s)) := by
        rw [List.mem_filter, List.mem_range]
        exact ⟨h2 a ha, by simpa using ha⟩
      rw [List.count_eq_one_of_mem hnd hmem, List.count_eq_one_of_mem h1 ha]
    · have hmem : a ∉ (List.range n).filter (fun j => decide (j ∈ s)) := by
        rw [List.mem_filter]
        intro hc
        exact ha (by simpa using hc.2)
      rw [List.count_eq_zero_of_not_mem hmem, List.count_eq_zero_of_not_mem ha]
  exact hperm.length_eq

lemma length_allSel (y p : List ℕ) (hsuff : ∀ k, p.count k ≤ y.count k) :
    (allSel y p).length = p.length := by
  rw [allSel, List.length_flatMap]
  have hmap : p.dedup.map (List.length ∘ selIdx y p) = p.dedup.map (fun k => p.count k) := by
    apply List.map_congr_left
    intro k _
    exact length_selIdx y p k (hsuff k)
  rw [hmap, List.sum_map_count_dedup_eq_length]

lemma count_maskSelect (k : ℕ) : ∀ (y : List ℕ) (m : List Bool), m.length = y.length →
    (maskSelect y m).count k
      = ((List.range y.length).filter
          (fun j => m.getD j false && decide (y.getD j 0 = k))).length := by
  intro y
  induction y with
  | nil =>
    intro m hm
    have : m = [] := List.length_eq_zero.mp (by rw [hm]; rfl)
    subst this
    simp [maskSelect]
  | cons a ys ih =>
    intro m hm
    cases m with
    | nil => simp at hm
    | cons b bs =>
      have hbs : bs.length = ys.length := by simpa using hm
      have hstep : maskSelect (a :: ys) (b :: bs)
          = (if b then [a] else []) ++ maskSelect ys bs := by
        cases b <;> simp [maskSelect]
      have hcomp : List.filter
            ((fun j => (b :: bs).getD j false && decide ((a :: ys).getD j 0 = k)) ∘ Nat.succ)
            (List.range ys.length)
          = List.filter (fun j => bs.getD j false && decide (ys.getD j 0 = k))
              (List.range ys.length) :=
        List.filter_congr (fun j _ => rfl)
      have hR : ((List.range (a :: ys).length).filter
            (fun j => (b :: bs).getD j false && decide ((a :: ys).getD j 0 = k)))
          = (if b && decide (a = k) then [0] else [])
            ++ ((List.range ys.length).filter
                  (fun j => bs.getD j false && decide (ys.getD j 0 = k))).map Nat.succ := by
        rw [List.length_cons, List.range_succ_eq_map, List.filter_cons, List.filter_map, hcomp]
        by_cases hb : b
        · by_cases hk : a = k <;> simp [hb, hk, List.getD_cons_zero]
        · simp [hb, List.getD_cons_zero]
      rw [hstep, List.count_append, ih bs hbs, hR, List.length_append, List.length_map]
      by_cases hb : b
      · by_cases hk : a = k <;> simp [hb, hk, List.count_cons]
      · simp [hb]

/-- Claim C3 (amended): whenever every class value occurs in `y_full` at least
as often as in `y_reference` (per-class sufficiency — which the docstring's
precondition "`y_prior` : subset of `y`" guarantees), `stratified_mask`
returns a mask whose selected entries number exactly `len(y_reference)`, and
for every class value `k` the selected entries of `y_full` with label `k`
number exactly the occurrences of `k` in `y_reference`.  Without sufficiency
the code silently truncates and the mask is smaller (see the
counterexample). -/
theorem c3_stratified_mask_counts (y p : List ℕ)
    (hsuff : ∀ k, p.count k ≤ y.count k) :
    (rejection.stratified_mask y p).count true = p.length ∧
    ∀ k, (maskSelect y (rejection.stratified_mask y p)).count k = p.count k := by
  constructor
  · rw [count_true_eq_length_filter_range, stratified_mask_length]
    rw [List.filter_congr (fun j _ => getD_stratified_eq_decide y p j)]
    rw [filter_range_mem_length (allSel y p) y.length (nodup_allSel y p)
      (fun j hj => mem_allSel_lt y p j hj)]
    exact length_allSel y p hsuff
  · intro k
    rw [count_maskSelect k y (rejection.stratified_mask y p) (stratified_mask_length y p)]
    have hcong : ∀ j ∈ List.range y.length,
        ((rejection.stratified_mask y p).getD j false && decide (y.getD j 0 = k))
          = decide (j ∈ selIdx y p k) := by
      intro j _
      rw [getD_stratified_eq_decide y p j]
      by_cases hsel : j ∈ selIdx y p k
      · have hyk : y.getD j 0 = k := (mem_selIdx y p k j hsel).2
        have hall : j ∈ allSel y p := by
          rw [allSel, List.mem_flatMap]
          refine ⟨k, ?_, hsel⟩
          have hcnt : p.count k ≠ 0 := by
            intro h0
            rw [selIdx, h0, List.take_zero] at hsel
            cases hsel
          rw [List.mem_dedup]
          by_contra hmem
          exact hcnt (List.count_eq_zero.mpr hmem)
        rw [decide_eq_true hall, decide_eq_true hyk, decide_eq_true hsel]
        rfl
      · by_cases hall : j ∈ allSel y p
        · by_cases hyk : y.getD j 0 = k
          · exfalso
            have h2 := hall
            rw [allSel, List.mem_flatMap] at h2
            rcases h2 with ⟨c, _, hjc⟩
            have : c = k := ((mem_selIdx y p c j hjc).2).symm.trans hyk
            rw [this] at hjc
            exact hsel hjc
          · rw [decide_eq_false hyk, decide_eq_false hsel, Bool.and_false]
        · rw [decide_eq_false hall, decide_eq_false hsel, Bool.false_and]
    rw [List.filter_congr hcong]
    rw [filter_range_mem_length (selIdx y p k) y.length (nodup_selIdx y p k)
      (fun j hj => (mem_selIdx y p k j hj).1)]
    exact length_selIdx y p k (hsuff k)

/-- Witness for C3 at `y = [0,1,0,1,1]`, `p = [1,0]`. -/
theorem c3_witness :
    (rejection.stratified_mask [0, 1, 0, 1, 1] [1, 0]).count true = [1, 0].length ∧
    (maskSelect [0, 1, 0, 1, 1] (rejection.stratified_mask [0, 1, 0, 1, 1] [1, 0])).count 1
      = [1, 0].count 1 := by
  have hsuff : ∀ k, List.count k [1, 0] ≤ List.count k [0, 1, 0, 1, 1] := by
    intro k
    rcases k with _ | _ | n
    · decide
    · decide
    · have h : List.count (n + 2) [1, 0] = 0 := by
        rw [List.count_eq_zero]
        intro hmem
        simp at hmem
      rw [h]
      exact Nat.zero_le _
  have h := c3_stratified_mask_counts [0, 1, 0, 1, 1] [1, 0] hsuff
  exact ⟨h.1, h.2 1⟩

/-- Counterexample for C3 as frozen: with `y_full = [0]` and
`y_reference = [0, 0]` the class-0 quota of 2 cannot be met, and the mask
selects only one entry, not `len(y_reference) = 2`. -/
theorem c3_counterexample :
    ¬ ((rejection.stratified_mask [0] [0, 0]).count true = [0, 0].length) := by
  decide

/-- Claim C7: evaluation of the code at the failing input.  The source has no
failure path at all: at `y_full = [0]`, `y_reference = [0, 0]` it silently
returns the truncated mask `[true]` (1 selected sample instead of the
requested 2) instead of aborting with an `InsufficientClassMembers` error. -/
theorem c7_insufficient_class_truncates :
    rejection.stratified_mask [0] [0, 0] = [true]
      ∧ (rejection.stratified_mask [0] [0, 0]).count true = 1 := by
  decide

lemma maskSelect_length {α : Type} : ∀ (xs : List α) (m : List Bool),
    m.length = xs.length → (maskSelect xs m).length = m.count true := by
  intro xs
  induction xs with
  | nil =>
    intro m hm
    have : m = [] := List.length_eq_zero.mp (by rw [hm]; rfl)
    subst this
    simp [maskSelect]
  | cons a ys ih =>
    intro m hm
    cases m with
    | nil => simp at hm
    | cons b bs =>
      have hbs : bs.length = ys.length := by simpa using hm
      have hstep : maskSelect (a :: ys) (b :: bs)
          = (if b then [a] else []) ++ maskSelect ys bs := by
        cases b <;> simp [maskSelect]
      rw [hstep, List.length_append, ih bs hbs]
      cases b <;> simp [List.count_cons] <;> omega

lemma getD_map_range {β : Type} (n i : ℕ) (f : ℕ → β) (d : β) (h : i < n) :
    ((List.range n).map f).getD i d = f i := by
  rw [List.getD_eq_getElem _ _ (by simpa using h)]
  simp only [List.getElem_map, List.getElem_range]

lemma engine_p_getD (rng : ℕ → List Bool → List Bool)
    (boot : ℕ → ℕ → List ℚ → List ℚ → ℚ × ℚ) (u y probs : List ℚ)
    (measure : List ℚ → List ℚ → ℚ) (mp : ℚ) (nb : ℕ) (i : ℕ) (hi : i < 100) :
    (figures.performance_over_uncertainty_tol rng boot u y probs measure mp nb).2.2.1.getD
        i (0, 0, 0)
      = (measure (maskSelect y ((sr_masks u mp none).getD i []))
                 (maskSelect probs ((sr_masks u mp none).getD i [])),
         (boot i nb (maskSelect y ((sr_masks u mp none).getD i []))
                    (maskSelect probs ((sr_masks u mp none).getD i []))).1,
         (boot i nb (maskSelect y ((sr_masks u mp none).getD i []))
                    (maskSelect probs ((sr_masks u mp none).getD i []))).2) := by
  have e : (figures.performance_over_uncertainty_tol rng boot u y probs measure mp nb).2.2.1
      = (List.range (sr_masks u mp none).length).map (fun i =>
          (measure (maskSelect y ((sr_masks u mp none).getD i []))
                   (maskSelect probs ((sr_masks u mp none).getD i [])),
           (boot i nb (maskSelect y ((sr_masks u mp none).getD i []))
                      (maskSelect probs ((sr_masks u mp none).getD i []))).1,
           (boot i nb (maskSelect y ((sr_masks u mp none).getD i []))
                      (maskSelect probs ((sr_masks u mp none).getD i []))).2)) := rfl
  rw [e, getD_map_range _ _ _ _ (by rw [length_sr_masks]; exact hi)]

lemma engine_prand_getD (rng : ℕ → List Bool → List Bool)
    (boot : ℕ → ℕ → List ℚ → List ℚ → ℚ × ℚ) (u y probs : List ℚ)
    (measure : List ℚ → List ℚ → ℚ) (mp : ℚ) (nb : ℕ) (i : ℕ) (hi : i < 100) :
    (figures.performance_over_uncertainty_tol rng boot u y probs measure mp nb).2.2.2.getD
        i (0, 0, 0)
      = (measure (maskSelect y (rng i ((sr_masks u mp none).getD i [])))
                 (maskSelect probs (rng i ((sr_masks u mp none).getD i []))),
         (boot i 100 (maskSelect y (rng i ((sr_masks u mp none).getD i [])))
                     (maskSelect probs (rng i ((sr_masks u mp none).getD i [])))).1,
         (boot i 100 (maskSelect y (rng i ((sr_masks u mp none).getD i [])))
                     (maskSelect probs (rng i ((sr_masks u mp none).getD i [])))).2) := by
  have e : (figures.performance_over_uncertainty_tol rng boot u y probs measure mp nb).2.2.2
      = (List.range (sr_masks u mp none).length).map (fun i =>
          (measure (maskSelect y (rng i ((sr_masks u mp none).getD i [])))
                   (maskSelect probs (rng i ((sr_masks u mp none).getD i []))),
           (boot i 100 (maskSelect y (rng i ((sr_masks u mp none).getD i [])))
                       (maskSelect probs (rng i ((sr_masks u mp none).getD i [])))).1,
           (boot i 100 (maskSelect y (rng i ((sr_masks u mp none).getD i [])))
                       (maskSelect probs (rng i ((sr_masks u mp none).getD i [])))).2)) := rfl
  rw [e, getD_map_range _ _ _ _ (by rw [length_sr_masks]; exact hi)]

/-- Claim C8: in `performance_over_uncertainty_tol`, whenever the random
draw at a grid point is a permutation of the boolean acceptance mask (as
`np.random.permutation` is), the random-rejection baseline subset has exactly
the cardinality of the accepted subset at that grid point; instantiating the
engine's pluggable measure with the subset-cardinality measure, the baseline
curve values coincide with the primary curve values at every grid point. -/
theorem c8_baseline_same_cardinality (rng : ℕ → List Bool → List Bool)
    (boot : ℕ → ℕ → List ℚ → List ℚ → ℚ × ℚ) (u y probs : List ℚ) (mp : ℚ) (nb : ℕ)
    (hrng : ∀ i m, List.Perm (rng i m) m)
    (hy : y.length = u.length) :
    (∀ i, i < 100 →
      (maskSelect y (rng i ((sr_masks u mp none).getD i []))).length
        = (maskSelect y ((sr_masks u mp none).getD i [])).length) ∧
    (∀ i, i < 100 →
      ((figures.performance_over_uncertainty_tol rng boot u y probs
          (fun a _ => ((a.length : ℚ))) mp nb).2.2.2.getD i (0, 0, 0)).1
        = ((figures.performance_over_uncertainty_tol rng boot u y probs
          (fun a _ => ((a.length : ℚ))) mp nb).2.2.1.getD i (0, 0, 0)).1) := by
  have hcard : ∀ i, i < 100 →
      (maskSelect y (rng i ((sr_masks u mp none).getD i []))).length
        = (maskSelect y ((sr_masks u mp none).getD i [])).length := by
    intro i hi
    have hacc_len : ((sr_masks u mp none).getD i []).length = u.length := by
      rw [sr_masks_getD _ _ _ _ hi]
      simp
    have hperm := hrng i ((sr_masks u mp none).getD i [])
    have h1 : (maskSelect y (rng i ((sr_masks u mp none).getD i []))).length
        = (rng i ((sr_masks u mp none).getD i [])).count true :=
      maskSelect_length y _ (by rw [hperm.length_eq, hacc_len, hy])
    have h2 : (maskSelect y ((sr_masks u mp none).getD i [])).length
        = ((sr_masks u mp none).getD i []).count true :=
      maskSelect_length y _ (by rw [hacc_len, hy])
    rw [h1, h2, hperm.count_eq true]
  refine ⟨hcard, ?_⟩
  intro i hi
  rw [engine_prand_getD rng boot u y probs _ mp nb i hi,
    engine_p_getD rng boot u y probs _ mp nb i hi]
  show ((maskSelect y (rng i ((sr_masks u mp none).getD i []))).length : ℚ)
    = ((maskSelect y ((sr_masks u mp none).getD i [])).length : ℚ)
  exact_mod_cast hcard i hi

/-- Witness for C8: concrete engine run with `rng` the list-reversal
permutation, at grid point 0. -/
theorem c8_witness :
    ((figures.performance_over_uncertainty_tol (fun _ m => m.reverse)
        (fun _ _ _ _ => ((0 : ℚ), (0 : ℚ))) [0, 1] [1, 0] [0, 1]
        (fun a _ => ((a.length : ℚ))) 0 5).2.2.2.getD 0 (0, 0, 0)).1
      = ((figures.performance_over_uncertainty_tol (fun _ m => m.reverse)
        (fun _ _ _ _ => ((0 : ℚ), (0 : ℚ))) [0, 1] [1, 0] [0, 1]
        (fun a _ => ((a.length : ℚ))) 0 5).2.2.1.getD 0 (0, 0, 0)).1 :=
  (c8_baseline_same_cardinality (fun _ m => m.reverse)
    (fun _ _ _ _ => ((0 : ℚ), (0 : ℚ))) [0, 1] [1, 0] [0, 1] 0 5
    (fun _ m => m.reverse_perm) rfl).2 0 (by norm_num)

/-- Claim C9: `performance_over_uncertainty_tol` is deterministic given the
random state.  All randomness is threaded explicitly (`rng` for the
permutation draws, `boot` for the bootstrap's resampling draws — the latter
modelled from the spec, §4.6, since `util.bootstrap` is outside the source
tree): two runs with identical inputs and the same seeded generator state
produce identical outputs — threshold grid, retained fractions, and both
curves. -/
theorem c9_engine_deterministic (rng1 rng2 : ℕ → List Bool → List Bool)
    (boot1 boot2 : ℕ → ℕ → List ℚ → List ℚ → ℚ × ℚ)
    (u1 u2 y1 y2 pr1 pr2 : List ℚ) (m1 m2 : List ℚ → List ℚ → ℚ)
    (mp1 mp2 : ℚ) (nb1 nb2 : ℕ)
    (hrng : rng1 = rng2) (hboot : boot1 = boot2) (hu : u1 = u2) (hy : y1 = y2)
    (hpr : pr1 = pr2) (hm : m1 = m2) (hmp : mp1 = mp2) (hnb : nb1 = nb2) :
    figures.performance_over_uncertainty_tol rng1 boot1 u1 y1 pr1 m1 mp1 nb1
      = figures.performance_over_uncertainty_tol rng2 boot2 u2 y2 pr2 m2 mp2 nb2 := by
  subst hrng hboot hu hy hpr hm hmp hnb
  rfl

/-- Witness for C9: a concrete doubled run. -/
theorem c9_witness :
    figures.performance_over_uncertainty_tol (fun _ m => m.reverse)
        (fun _ _ _ _ => ((0 : ℚ), (0 : ℚ))) [0, 1] [1, 0] [0, 1]
        (fun a _ => ((a.length : ℚ))) 0 5
      = figures.performance_over_uncertainty_tol (fun _ m => m.reverse)
        (fun _ _ _ _ => ((0 : ℚ), (0 : ℚ))) [0, 1] [1, 0] [0, 1]
        (fun a _ => ((a.length : ℚ))) 0 5 :=
  c9_engine_deterministic _ _ _ _ _ _ _ _ _ _ _ _ _ _ _ _
    rfl rfl rfl rfl rfl rfl rfl rfl
